import Mathlib

/-!
Verification of the hiredis incremental reply parser and command pipeline.

The repository ships only `hiredis.h`; the implementation file is not part of
the sources, so every operational definition below is modelled from the
design document (`spec.md`), faithful to its wording, and each definition's
doc comment records which missing C symbol it stands for.

Bytes are modelled as `Char` values (the wire protocol is 8-bit clean for the
purposes of the spec; `Char` carries arbitrary code points including NUL, CR
and LF, which is all the grammar distinguishes).
-/

namespace Hiredis

/-- Modelled from the spec: the `Reply Value` data model (§3), the shape built
by the default `redisReplyObjectFunctions` into `redisReply` (hiredis.h:55).
`error`/`status` carry the message with no leading sigil; `bulk` is a raw,
binary-safe byte payload; `array` owns its elements; `nil` is explicit
absence, distinct from empty string/array. -/
inductive Reply where
  | error (msg : List Char)
  | status (msg : List Char)
  | integer (n : Int)
  | nil
  | bulk (payload : List Char)
  | array (elems : List Reply)

/-- Modelled from the spec: one `Decode Frame` (§3) of the task stack
(`redisReadTask` in hiredis.h:63): the number of elements the pending array
expects in total, and the elements attached so far, in order. The
back-reference to the enclosing frame is represented by the frame's position
in the stack list. -/
structure Frame where
  expected : Nat
  elems : List Reply

/-- Modelled from the spec: scan for the two-byte line terminator (§4.1
"each unit terminated by a two-byte line terminator").  Returns the line
content before the first CRLF and the remainder after it, or `none` when no
complete terminator is buffered yet. -/
def readLine : List Char → Option (List Char × List Char)
  | [] => none
  | c :: rest =>
    if c = '\r' ∧ rest.head? = some '\n' then some ([], rest.tail)
    else
      match readLine rest with
      | some (l, r) => some (c :: l, r)
      | none => none

/-- Numeric value of a decimal digit character, `none` for non-digits. -/
def digitVal (c : Char) : Option Nat :=
  if '0' ≤ c ∧ c ≤ '9' then some (c.toNat - '0'.toNat) else none

/-- Accumulating decimal parse of a digit run; fails on any non-digit. -/
def parseDigits (acc : Nat) : List Char → Option Nat
  | [] => some acc
  | c :: rest =>
    match digitVal c with
    | some d => parseDigits (acc * 10 + d) rest
    | none => none

/-- Modelled from the spec: parse the integer payload of a `:`/`$`/`*` header
line (§4.1: "integer parse failure is a ProtocolError").  An optional leading
minus sign followed by at least one decimal digit; anything else fails. -/
def parseLine : List Char → Option Int
  | [] => none
  | c :: rest =>
    if c = '-' then
      match rest with
      | [] => none
      | _ :: _ => (parseDigits 0 rest).map (fun n => -(n : Int))
    else (parseDigits 0 (c :: rest)).map (fun n => (n : Int))

/-- Outcome of one atomic decode step at the cursor. -/
inductive ItemResult where
  | incomplete
  | protoErr (msg : String)
  | value (v : Reply) (consumed : Nat)
  | openArray (count : Nat) (consumed : Nat)

/-- Modelled from the spec: one decode step of the grammar (§4.1), the unit
of work of the missing `redisReplyReaderGetReply` implementation.  It decodes
one protocol unit at the start of `s` (the unconsumed suffix of the
accumulation buffer): a status, error, integer or bulk line yields a value; a
`*` header with positive count asks the caller to push a frame; sentinel
negative-one counts yield `nil`; malformed headers are protocol errors.  The
step is atomic: when the buffered bytes run out mid-unit it reports
`incomplete` and consumes nothing. -/
def decodeItem (s : List Char) : ItemResult :=
  match s with
  | [] => .incomplete
  | c :: rest =>
    if c = '+' then
      match readLine rest with
      | none => .incomplete
      | some (l, _) => .value (.status l) (3 + l.length)
    else if c = '-' then
      match readLine rest with
      | none => .incomplete
      | some (l, _) => .value (.error l) (3 + l.length)
    else if c = ':' then
      match readLine rest with
      | none => .incomplete
      | some (l, _) =>
        match parseLine l with
        | none => .protoErr "bad integer"
        | some i => .value (.integer i) (3 + l.length)
    else if c = '$' then
      match readLine rest with
      | none => .incomplete
      | some (l, rest2) =>
        match parseLine l with
        | none => .protoErr "bad bulk length"
        | some i =>
          if i = -1 then .value .nil (3 + l.length)
          else if i < 0 then .protoErr "bad bulk length"
          else if rest2.length < i.toNat + 2 then .incomplete
          else .value (.bulk (rest2.take i.toNat)) (3 + l.length + i.toNat + 2)
    else if c = '*' then
      match readLine rest with
      | none => .incomplete
      | some (l, _) =>
        match parseLine l with
        | none => .protoErr "bad multi bulk length"
        | some i =>
          if i = -1 then .value .nil (3 + l.length)
          else if i < 0 then .protoErr "bad multi bulk length"
          else if i = 0 then .value (.array []) (3 + l.length)
          else .openArray i.toNat (3 + l.length)
    else .protoErr "unknown sigil"

/-- Modelled from the spec: attach a completed value to the top decode frame,
popping and attaching upward while the new top is also complete (§4.1
"repeating pop/attach while the new top is also complete"); with an empty
stack the value is the final reply. -/
def attachValue : List Frame → Reply → List Frame ⊕ Reply
  | [], v => .inr v
  | f :: fs, v =>
    if f.elems.length + 1 = f.expected then attachValue fs (.array (f.elems ++ [v]))
    else .inl ({ f with elems := f.elems ++ [v] } :: fs)

/-- Result of driving decode steps over the unconsumed suffix: a completed
top-level reply (with the number of bytes it consumed), a stalled state
(bytes consumed by fully-applied steps plus the frame stack to resume with),
or a protocol error (likewise recording the progress point). -/
inductive RunResult where
  | complete (v : Reply) (consumed : Nat)
  | incomplete (consumed : Nat) (stack : List Frame)
  | protoErr (msg : String) (consumed : Nat) (stack : List Frame)

/-- Shift the consumed-byte count of a `RunResult` by `k` earlier bytes. -/
def addConsumed (k : Nat) : RunResult → RunResult
  | .complete v n => .complete v (k + n)
  | .incomplete n st => .incomplete (k + n) st
  | .protoErr m n st => .protoErr m (k + n) st

/-- Modelled from the spec: the step loop of `redisReplyReaderGetReply`
(§4.1 "Algorithm shape"): repeatedly decode one unit at the cursor, attach
completed values through the frame stack, and stop at the first complete
top-level reply, at the first stalled step, or at a protocol error.  The
fuel argument only serves termination; any fuel larger than the suffix
length is enough because every applied step consumes at least one byte. -/
def runSteps : Nat → List Char → List Frame → RunResult
  | 0, _, st => .incomplete 0 st
  | f + 1, s, st =>
    match decodeItem s with
    | .incomplete => .incomplete 0 st
    | .protoErr m => .protoErr m 0 st
    | .value v n =>
      match attachValue st v with
      | .inr r => .complete r n
      | .inl st' => addConsumed n (runSteps f (s.drop n) st')
    | .openArray k n => addConsumed n (runSteps f (s.drop n) (Frame.mk k [] :: st))

/-- Modelled from the spec: the state of the reply parser (§4.1), the missing
`redisReader` structure behind `redisReplyReaderCreate`: the accumulation
buffer, the cursor into it, the decode-frame stack, and the sticky error
slot of a permanently failed parser. -/
structure Reader where
  buf : List Char
  pos : Nat
  stack : List Frame
  err : Option String

/-- A freshly created parser: empty buffer, cursor at zero, no frames. -/
def initReader : Reader := ⟨[], 0, [], none⟩

/-- Modelled from the spec: `redisReplyReaderFeed` (hiredis.h:123) —
"`feed(bytes)` appends bytes to an internal accumulation buffer; it performs
no parsing by itself" (§4.1). -/
def feed (r : Reader) (bs : List Char) : Reader :=
  { r with buf := r.buf ++ bs }

/-- The three outcomes of a `getReply` call (§4.1 contract). -/
inductive ReplyOutcome where
  | complete (v : Reply)
  | incomplete
  | protocolError (msg : String)

/-- Modelled from the spec: `redisReplyReaderGetReply` (hiredis.h:124).  A
failed parser keeps returning the recorded error.  Otherwise the step loop
runs from the cursor: on a complete reply the consumed prefix is removed
from the accumulation buffer; on a stall the buffer is untouched and the
cursor/stack keep the progress of the fully-applied steps; on a protocol
error the error is recorded permanently. -/
def getReply (r : Reader) : ReplyOutcome × Reader :=
  match r.err with
  | some m => (.protocolError m, r)
  | none =>
    let s := r.buf.drop r.pos
    match runSteps (s.length + 1) s r.stack with
    | .complete v n => (.complete v, ⟨r.buf.drop (r.pos + n), 0, [], none⟩)
    | .incomplete n st => (.incomplete, ⟨r.buf, r.pos + n, st, none⟩)
    | .protoErr m n st => (.protocolError m, ⟨r.buf, r.pos + n, st, some m⟩)

/-- Repeatedly call `getReply`, collecting completed replies until the parser
stalls or fails; the fuel only serves termination (any value above the
buffer length is enough, since each completed reply consumes bytes). -/
def drainF : Nat → Reader → List Reply × Reader
  | 0, r => ([], r)
  | f + 1, r =>
    match getReply r with
    | (.complete v, r') =>
      let p := drainF f r'
      (v :: p.1, p.2)
    | (.incomplete, r') => ([], r')
    | (.protocolError _, r') => ([], r')

/-- Drain every currently-decodable reply from the parser. -/
def drain (r : Reader) : List Reply × Reader :=
  drainF (r.buf.length + 1) r

/-- Feed the chunks one at a time, calling `getReply` repeatedly after each
chunk, and collect the completed replies in order (§8 "incremental
equivalence" scenario). -/
def runChunks : Reader → List (List Char) → List Reply × Reader
  | r, [] => ([], r)
  | r, chunk :: rest =>
    let p := drain (feed r chunk)
    let q := runChunks p.2 rest
    (p.1 ++ q.1, q.2)

/-- Byte count consumed by a decode step (zero for stalls and errors). -/
def ItemResult.consumed : ItemResult → Nat
  | .value _ n => n
  | .openArray _ n => n
  | _ => 0

/-- Sanity bounds for an applied decode step: it consumes at least one byte
and no more than the available suffix. -/
def ItemResult.stepOk : ItemResult → Nat → Prop
  | .value _ n, len => 1 ≤ n ∧ n ≤ len
  | .openArray _ n, len => 1 ≤ n ∧ n ≤ len
  | _, _ => True

/-- Consumed-byte count of a step-loop result. -/
def RunResult.consumed : RunResult → Nat
  | .complete _ n => n
  | .incomplete n _ => n
  | .protoErr _ n _ => n

/-- A parser state is settled when draining it yields nothing and leaves it
unchanged: the state a drain always ends in. -/
def Settled (r : Reader) : Prop := drain r = ([], r)

/-- The parser state after `k` further `getReply` calls. -/
def getReplyIter : Nat → Reader → Reader
  | 0, r => r
  | k + 1, r => (getReply (getReplyIter k r)).2

/-- The canonical wire encoding of an integer reply nested inside `d`
one-element arrays: `d` copies of the `*1` header followed by `:7`. -/
def nestEnc : Nat → List Char
  | 0 => [':', '7', '\r', '\n']
  | d + 1 => '*' :: '1' :: '\r' :: '\n' :: nestEnc d

/-- The reply value `nestEnc d` encodes: the integer 7 nested inside `d`
one-element arrays. -/
def nestVal : Nat → Reply
  | 0 => .integer 7
  | d + 1 => .array [nestVal d]

/-- Modelled from the spec: the `redisContext` connection state (§3
"Connection", hiredis.h:97): blocking-mode flag, output buffer of bytes
pending transmission (`obuf`), bytes already accepted by the channel
(`sent`, standing for the socket the core only writes to), the reply parser
instance, the FIFO of pending reply callbacks (`callbacks`/`cpos`/`clen` in
hiredis.h, one entry per issued command, `none` for a NULL callback), and
the error slot.  A callback is represented by an opaque token standing for
its function pointer and private data. -/
structure Conn where
  blocking : Bool
  obuf : List Char
  sent : List Char
  reader : Reader
  callbacks : List (Option Nat)
  error : Option String

/-- A freshly connected context in the given mode (`redisConnect` /
`redisConnectNonBlock`), before any command is issued. -/
def mkConn (blocking : Bool) : Conn :=
  ⟨blocking, [], [], initReader, [], none⟩

/-- Modelled from the spec: `redisCommandWithCallback` (hiredis.h:161):
"The formatted command is appended to the write buffer and the provided
callback is registered" (queue order is issue order, §4.3), and "when called
with a blocking context, this function will not do anything and immediately
returns NULL". -/
def redisCommandWithCallback (c : Conn) (cb : Option Nat) (cmd : List Char) :
    Option Reply × Conn :=
  if c.blocking then (none, c)
  else (none, { c with obuf := c.obuf ++ cmd, callbacks := c.callbacks ++ [cb] })

/-- Modelled from the spec: the parser-facing effect of `redisBufferRead`
(hiredis.h:130) when the channel delivered `bytes`: pull the available bytes
and feed them to the reply parser (§4.2 `read()`). -/
def feedConn (c : Conn) (bytes : List Char) : Conn :=
  { c with reader := feed c.reader bytes }

/-- Result of one `processCallbacks` pump: the callback invocations
performed (token paired with the reply value it received, in order), the
parser state left behind, the still-pending queue, and the error slot. -/
structure PCResult where
  invocations : List (Nat × Reply)
  reader : Reader
  pending : List (Option Nat)
  error : Option String

/-- Modelled from the spec: the loop of `redisProcessCallbacks`
(hiredis.h:133, §4.2): repeatedly ask the parser for a completed value; for
each one dequeue the oldest pending callback and invoke it with that value;
stop when the parser stalls; record a protocol error; a reply completing
with no queued callback is a usage error that stops the pump (§7). -/
def pcLoop : Reader → List (Option Nat) → PCResult
  | r, [] =>
    match getReply r with
    | (.complete _, r') => ⟨[], r', [], some "reply arrived without a pending callback"⟩
    | (.incomplete, r') => ⟨[], r', [], none⟩
    | (.protocolError m, r') => ⟨[], r', [], some m⟩
  | r, cb :: cbs =>
    match getReply r with
    | (.complete v, r') =>
      let res := pcLoop r' cbs
      { res with
        invocations :=
          match cb with
          | some t => (t, v) :: res.invocations
          | none => res.invocations }
    | (.incomplete, r') => ⟨[], r', cb :: cbs, none⟩
    | (.protocolError m, r') => ⟨[], r', cb :: cbs, some m⟩

/-- Modelled from the spec: `redisProcessCallbacks` (hiredis.h:133), the
non-blocking reply pump; in blocking mode it is not used and does
nothing. -/
def redisProcessCallbacks (c : Conn) : List (Nat × Reply) × Conn :=
  if c.blocking then ([], c)
  else
    let res := pcLoop c.reader c.callbacks
    (res.invocations,
      { c with reader := res.reader, callbacks := res.pending, error := res.error })

/-- One non-blocking event-loop run over a schedule of channel deliveries:
each `read()` that returned `chunk` is followed by a `processCallbacks`
pump; invocations accumulate in order (§4.2). -/
def pump : Conn → List (List Char) → List (Nat × Reply) × Conn
  | c, [] => ([], c)
  | c, chunk :: rest =>
    let c₁ := feedConn c chunk
    let p := redisProcessCallbacks c₁
    let q := pump p.2 rest
    (p.1 ++ q.1, q.2)

/-- Pair the callback queue with the reply sequence in order, skipping NULL
callbacks: the invocation list `processCallbacks` must produce. -/
def okZip : List (Option Nat) → List Reply → List (Nat × Reply)
  | _, [] => []
  | [], _ :: _ => []
  | cb :: cbs, v :: vs =>
    match cb with
    | some t => (t, v) :: okZip cbs vs
    | none => okZip cbs vs

/-- Issue a batch of commands (callback token, command bytes) in order via
`redisCommandWithCallback`. -/
def issueAll : Conn → List (Nat × List Char) → Conn
  | c, [] => c
  | c, (t, cmd) :: ps => issueAll (redisCommandWithCallback c (some t) cmd).2 ps

/-- Modelled from the spec: the blocking-mode `getReply` cycle of §4.2:
"repeatedly performs `read()` then asks the Reply Parser for a completed
value until one is returned or the channel fails".  The channel is modelled
by the schedule `script` of byte chunks successive `read()` calls deliver;
an exhausted schedule or a zero-byte read (peer closed the connection) is a
channel error. -/
def blockingGetReply : Reader → List (List Char) → Except String Reply × Reader
  | r, [] => (.error "could not read from the channel", r)
  | r, chunk :: rest =>
    if chunk = [] then (.error "server closed the connection", r)
    else
      let r₁ := feed r chunk
      match getReply r₁ with
      | (.complete v, r₂) => (.ok v, r₂)
      | (.incomplete, r₂) => blockingGetReply r₂ rest
      | (.protocolError m, r₂) => (.error m, r₂)

/-- Modelled from the spec: `redisCommand` (hiredis.h:149, §4.3 `issue`).
Blocking mode: append the formatted command, drain the output buffer to the
channel (blocking `write()` loops until done, §4.2), then run the blocking
`getReply` cycle; the decoded value is returned directly, no callback is
enqueued; on failure NULL is returned and the error slot describes it.
Non-blocking mode: same effect as `redisCommandWithCallback` with a NULL
callback, always returning NULL. -/
def redisCommand (c : Conn) (cmd : List Char) (script : List (List Char)) :
    Option Reply × Conn :=
  if c.blocking then
    match blockingGetReply c.reader script with
    | (.ok v, r') =>
      (some v, { c with
        obuf := []
        sent := c.sent ++ (c.obuf ++ cmd)
        reader := r'
        error := none })
    | (.error m, r') =>
      (none, { c with
        obuf := []
        sent := c.sent ++ (c.obuf ++ cmd)
        reader := r'
        error := some m })
  else
    (none, { c with obuf := c.obuf ++ cmd, callbacks := c.callbacks ++ [none] })

/-! ### Basic lemmas about line scanning -/

theorem readLine_cons (c : Char) (rest : List Char) :
    readLine (c :: rest) =
      if c = '\r' ∧ rest.head? = some '\n' then some ([], rest.tail)
      else
        match readLine rest with
        | some (l, r) => some (c :: l, r)
        | none => none := rfl

theorem readLine_length {s l r : List Char} (h : readLine s = some (l, r)) :
    s.length = l.length + 2 + r.length := by
  induction s generalizing l r with
  | nil => simp [readLine] at h
  | cons c rest ih =>
    simp only [readLine] at h
    split at h
    · rename_i hc
      simp only [Option.some.injEq, Prod.mk.injEq] at h
      obtain ⟨rfl, rfl⟩ := h
      cases rest with
      | nil => simp at hc
      | cons a as => simp [List.length]; omega
    · split at h
      · rename_i l' r' hrec
        simp only [Option.some.injEq, Prod.mk.injEq] at h
        obtain ⟨rfl, rfl⟩ := h
        have := ih hrec
        simp [List.length]; omega
      · exact absurd h (by simp)

theorem readLine_ext {s l r : List Char} (t : List Char)
    (h : readLine s = some (l, r)) : readLine (s ++ t) = some (l, r ++ t) := by
  induction s generalizing l r with
  | nil => simp [readLine] at h
  | cons c rest ih =>
    simp only [readLine] at h
    split at h
    · rename_i hc
      obtain ⟨rfl, h2⟩ := hc
      cases rest with
      | nil => simp at h2
      | cons a as =>
        simp only [List.head?, Option.some.injEq] at h2
        subst h2
        simp only [Option.some.injEq, Prod.mk.injEq] at h
        obtain ⟨rfl, rfl⟩ := h
        simp [readLine]
    · rename_i hc
      cases rest with
      | nil => simp [readLine] at h
      | cons a as =>
        split at h
        · rename_i l' r' hrec
          simp only [Option.some.injEq, Prod.mk.injEq] at h
          obtain ⟨rfl, rfl⟩ := h
          have hrec' := ih hrec
          simp only [List.cons_append] at hrec' ⊢
          rw [readLine_cons, if_neg (by simpa using hc), hrec']
        · exact absurd h (by simp)

theorem readLine_cat {l : List Char} (r : List Char) (hcr : '\r' ∉ l) :
    readLine (l ++ '\r' :: '\n' :: r) = some (l, r) := by
  induction l with
  | nil => simp [readLine]
  | cons c l' ih =>
    have hc : c ≠ '\r' := fun h => hcr (by simp [h])
    have hl' : '\r' ∉ l' := fun h => hcr (by simp [h])
    simp only [List.cons_append]
    rw [readLine_cons, if_neg (by simp [hc]), ih hl']

/-! ### Lemmas about the atomic decode step -/

/-- A decode step that did not stall is insensitive to bytes arriving after
the suffix it examined, and its consumed count is positive and within
bounds. -/
theorem decodeItem_main (s t : List Char) :
    decodeItem s = .incomplete ∨
      (decodeItem (s ++ t) = decodeItem s ∧ (decodeItem s).stepOk s.length) := by
  cases s with
  | nil => exact Or.inl rfl
  | cons c rest =>
    simp only [decodeItem, List.cons_append]
    split_ifs with h1 h2 h3 h4 h5
    · cases hrl : readLine rest with
      | none => exact Or.inl rfl
      | some p =>
        obtain ⟨l, r⟩ := p
        rw [readLine_ext t hrl]
        have hlen := readLine_length hrl
        dsimp only
        exact Or.inr ⟨by trivial, by omega, by simp only [List.length_cons]; omega⟩
    · cases hrl : readLine rest with
      | none => exact Or.inl rfl
      | some p =>
        obtain ⟨l, r⟩ := p
        rw [readLine_ext t hrl]
        have hlen := readLine_length hrl
        dsimp only
        exact Or.inr ⟨by trivial, by omega, by simp only [List.length_cons]; omega⟩
    · cases hrl : readLine rest with
      | none => exact Or.inl rfl
      | some p =>
        obtain ⟨l, r⟩ := p
        rw [readLine_ext t hrl]
        have hlen := readLine_length hrl
        dsimp only
        cases hp : parseLine l with
        | none => exact Or.inr ⟨by trivial, by trivial⟩
        | some i =>
          exact Or.inr ⟨by trivial, by omega, by simp only [List.length_cons]; omega⟩
    · -- bulk string header
      cases hrl : readLine rest with
      | none => exact Or.inl rfl
      | some p =>
        obtain ⟨l, rest2⟩ := p
        rw [readLine_ext t hrl]
        have hlen := readLine_length hrl
        dsimp only
        cases hp : parseLine l with
        | none => exact Or.inr ⟨by trivial, by trivial⟩
        | some i =>
          dsimp only
          by_cases hi1 : i = -1
          · simp only [if_pos hi1]
            exact Or.inr ⟨by trivial, by omega, by simp only [List.length_cons]; omega⟩
          · simp only [if_neg hi1]
            by_cases hi0 : i < 0
            · simp only [if_pos hi0]
              exact Or.inr ⟨by trivial, by trivial⟩
            · simp only [if_neg hi0]
              by_cases hb : rest2.length < i.toNat + 2
              · rw [if_pos hb]
                exact Or.inl rfl
              · rw [if_neg hb]
                rw [if_neg (by simp only [List.length_append]; omega)]
                rw [List.take_append_of_le_length (by omega)]
                exact Or.inr ⟨by trivial, by omega, by simp only [List.length_cons]; omega⟩
    · -- array header
      cases hrl : readLine rest with
      | none => exact Or.inl rfl
      | some p =>
        obtain ⟨l, r⟩ := p
        rw [readLine_ext t hrl]
        have hlen := readLine_length hrl
        dsimp only
        cases hp : parseLine l with
        | none => exact Or.inr ⟨by trivial, by trivial⟩
        | some i =>
          dsimp only
          by_cases hi1 : i = -1
          · simp only [if_pos hi1]
            exact Or.inr ⟨by trivial, by omega, by simp only [List.length_cons]; omega⟩
          · simp only [if_neg hi1]
            by_cases hi0 : i < 0
            · simp only [if_pos hi0]
              exact Or.inr ⟨by trivial, by trivial⟩
            · simp only [if_neg hi0]
              by_cases hz : i = 0
              · simp only [if_pos hz]
                exact Or.inr ⟨by trivial, by omega, by simp only [List.length_cons]; omega⟩
              · simp only [if_neg hz]
                exact Or.inr ⟨by trivial, by omega, by simp only [List.length_cons]; omega⟩
    · exact Or.inr ⟨by trivial, by trivial⟩

/-- Extension corollary for an applied value step. -/
theorem decodeItem_value_ext {s : List Char} (t : List Char) {v : Reply} {n : Nat}
    (h : decodeItem s = .value v n) : decodeItem (s ++ t) = .value v n := by
  rcases decodeItem_main s t with h0 | ⟨he, _⟩
  · rw [h] at h0; cases h0
  · rw [he, h]

/-- Bounds corollary for an applied value step. -/
theorem decodeItem_value_bounds {s : List Char} {v : Reply} {n : Nat}
    (h : decodeItem s = .value v n) : 1 ≤ n ∧ n ≤ s.length := by
  rcases decodeItem_main s [] with h0 | ⟨_, hok⟩
  · rw [h] at h0; cases h0
  · rw [h] at hok; exact hok

/-- Extension corollary for an applied array-header step. -/
theorem decodeItem_openArray_ext {s : List Char} (t : List Char) {k n : Nat}
    (h : decodeItem s = .openArray k n) : decodeItem (s ++ t) = .openArray k n := by
  rcases decodeItem_main s t with h0 | ⟨he, _⟩
  · rw [h] at h0; cases h0
  · rw [he, h]

/-- Bounds corollary for an applied array-header step. -/
theorem decodeItem_openArray_bounds {s : List Char} {k n : Nat}
    (h : decodeItem s = .openArray k n) : 1 ≤ n ∧ n ≤ s.length := by
  rcases decodeItem_main s [] with h0 | ⟨_, hok⟩
  · rw [h] at h0; cases h0
  · rw [h] at hok; exact hok

/-- Extension corollary for a protocol-error step. -/
theorem decodeItem_protoErr_ext {s : List Char} (t : List Char) {m : String}
    (h : decodeItem s = .protoErr m) : decodeItem (s ++ t) = .protoErr m := by
  rcases decodeItem_main s t with h0 | ⟨he, _⟩
  · rw [h] at h0; cases h0
  · rw [he, h]

/-! ### Lemmas about the step loop -/

theorem addConsumed_zero (x : RunResult) : addConsumed 0 x = x := by
  cases x <;> simp [addConsumed]

theorem addConsumed_add (a b : Nat) (x : RunResult) :
    addConsumed a (addConsumed b x) = addConsumed (a + b) x := by
  cases x <;> simp [addConsumed] <;> omega

theorem addConsumed_eq_complete {k : Nat} {x : RunResult} {v : Reply} {n : Nat}
    (h : addConsumed k x = .complete v n) :
    ∃ n', x = .complete v n' ∧ n = k + n' := by
  cases x with
  | complete w m =>
    simp only [addConsumed, RunResult.complete.injEq] at h
    exact ⟨m, by rw [h.1], h.2.symm⟩
  | incomplete m st => simp [addConsumed] at h
  | protoErr e m st => simp [addConsumed] at h

theorem addConsumed_eq_incomplete {k : Nat} {x : RunResult} {n : Nat} {st : List Frame}
    (h : addConsumed k x = .incomplete n st) :
    ∃ n', x = .incomplete n' st ∧ n = k + n' := by
  cases x with
  | complete w m => simp [addConsumed] at h
  | incomplete m stx =>
    simp only [addConsumed, RunResult.incomplete.injEq] at h
    exact ⟨m, by rw [h.2], h.1.symm⟩
  | protoErr e m stx => simp [addConsumed] at h

theorem addConsumed_eq_protoErr {k : Nat} {x : RunResult} {e : String} {n : Nat}
    {st : List Frame} (h : addConsumed k x = .protoErr e n st) :
    ∃ n', x = .protoErr e n' st ∧ n = k + n' := by
  cases x with
  | complete w m => simp [addConsumed] at h
  | incomplete m stx => simp [addConsumed] at h
  | protoErr e' m stx =>
    simp only [addConsumed, RunResult.protoErr.injEq] at h
    exact ⟨m, by rw [h.1, h.2.2], h.2.1.symm⟩

/-- The step loop's result does not depend on the fuel, as long as the fuel
exceeds the suffix length (each applied step consumes at least one byte). -/
theorem runSteps_fuel : ∀ {f₁ f₂ : Nat} {s : List Char} {st : List Frame},
    s.length < f₁ → s.length < f₂ → runSteps f₁ s st = runSteps f₂ s st := by
  intro f₁
  induction f₁ with
  | zero => intro f₂ s st h1; omega
  | succ g ih =>
    intro f₂ s st h1 h2
    cases f₂ with
    | zero => omega
    | succ g₂ =>
      simp only [runSteps]
      cases hd : decodeItem s with
      | incomplete => rfl
      | protoErr m => rfl
      | value v n =>
        dsimp only
        cases hat : attachValue st v with
        | inr r => rfl
        | inl st' =>
          have hb := decodeItem_value_bounds hd
          have hlt : (s.drop n).length < g := by simp [List.length_drop]; omega
          have hlt2 : (s.drop n).length < g₂ := by simp [List.length_drop]; omega
          dsimp only
          rw [ih hlt hlt2]
      | openArray k n =>
        dsimp only
        have hb := decodeItem_openArray_bounds hd
        have hlt : (s.drop n).length < g := by simp [List.length_drop]; omega
        have hlt2 : (s.drop n).length < g₂ := by simp [List.length_drop]; omega
        rw [ih hlt hlt2]

theorem addConsumed_consumed (k : Nat) (x : RunResult) :
    (addConsumed k x).consumed = k + x.consumed := by
  cases x <;> simp [addConsumed, RunResult.consumed]

/-- The step loop never consumes more bytes than the suffix holds. -/
theorem runSteps_consumed_le : ∀ {f : Nat} {s : List Char} {st : List Frame},
    (runSteps f s st).consumed ≤ s.length := by
  intro f
  induction f with
  | zero => intro s st; simp [runSteps, RunResult.consumed]
  | succ g ih =>
    intro s st
    simp only [runSteps]
    cases hd : decodeItem s with
    | incomplete => simp [RunResult.consumed]
    | protoErr m => simp [RunResult.consumed]
    | value v n =>
      have hb := decodeItem_value_bounds hd
      dsimp only
      cases hat : attachValue st v with
      | inr r => simpa [RunResult.consumed] using hb.2
      | inl st' =>
        dsimp only
        rw [addConsumed_consumed]
        have := @ih (s.drop n) st'
        simp only [List.length_drop] at this
        omega
    | openArray k n =>
      have hb := decodeItem_openArray_bounds hd
      dsimp only
      rw [addConsumed_consumed]
      have := @ih (s.drop n) (Frame.mk k [] :: st)
      simp only [List.length_drop] at this
      omega

/-- A completed reply consumes at least one byte. -/
theorem runSteps_complete_pos {f : Nat} {s : List Char} {st : List Frame}
    {v : Reply} {n : Nat} (h : runSteps f s st = .complete v n) : 1 ≤ n := by
  cases f with
  | zero => simp [runSteps] at h
  | succ g =>
    simp only [runSteps] at h
    cases hd : decodeItem s with
    | incomplete => rw [hd] at h; simp at h
    | protoErr m => rw [hd] at h; simp at h
    | value v₀ n₀ =>
      have hb := decodeItem_value_bounds hd
      rw [hd] at h
      dsimp only at h
      cases hat : attachValue st v₀ with
      | inr r =>
        rw [hat] at h
        dsimp only at h
        injection h with h1 h2
        omega
      | inl st' =>
        rw [hat] at h
        dsimp only at h
        obtain ⟨n', _, rfl⟩ := addConsumed_eq_complete h
        omega
    | openArray k n₀ =>
      have hb := decodeItem_openArray_bounds hd
      rw [hd] at h
      dsimp only at h
      obtain ⟨n', _, rfl⟩ := addConsumed_eq_complete h
      omega

/-- One-step unfolding of the step loop at positive fuel. -/
theorem runSteps_succ (f : Nat) (s : List Char) (st : List Frame) :
    runSteps (f + 1) s st =
      match decodeItem s with
      | .incomplete => .incomplete 0 st
      | .protoErr m => .protoErr m 0 st
      | .value v n =>
        match attachValue st v with
        | .inr r => .complete r n
        | .inl st' => addConsumed n (runSteps f (s.drop n) st')
      | .openArray k n => addConsumed n (runSteps f (s.drop n) (Frame.mk k [] :: st)) := rfl

/-- A reply completed out of the buffered bytes is insensitive to further
bytes arriving after them: the same reply, consuming the same prefix. -/
theorem runSteps_ext_complete : ∀ {f : Nat} {s : List Char} {st : List Frame}
    {v : Reply} {n : Nat} (t : List Char) {f' : Nat},
    s.length < f → (s ++ t).length < f' →
    runSteps f s st = .complete v n → runSteps f' (s ++ t) st = .complete v n := by
  intro f
  induction f with
  | zero => intro s st v n t f' h1 h2 h; exact absurd h1 (Nat.not_lt_zero _)
  | succ g ih =>
    intro s st v n t f' h1 h2 h
    cases f' with
    | zero => exact absurd h2 (Nat.not_lt_zero _)
    | succ g' =>
      simp only [runSteps] at h ⊢
      cases hd : decodeItem s with
      | incomplete => rw [hd] at h; simp at h
      | protoErr m => rw [hd] at h; simp at h
      | value v₀ n₀ =>
        have hb := decodeItem_value_bounds hd
        rw [hd] at h
        rw [decodeItem_value_ext t hd]
        dsimp only at h ⊢
        cases hat : attachValue st v₀ with
        | inr r =>
          rw [hat] at h
          dsimp only at h ⊢
          exact h
        | inl st' =>
          rw [hat] at h
          dsimp only at h ⊢
          obtain ⟨n₁, hx, rfl⟩ := addConsumed_eq_complete h
          rw [List.drop_append_of_le_length hb.2]
          have hlt : (s.drop n₀).length < g := by simp [List.length_drop]; omega
          have hlt2 : (s.drop n₀ ++ t).length < g' := by
            simp only [List.length_append, List.length_drop] at h2 ⊢; omega
          rw [ih t hlt hlt2 hx]
          rfl
      | openArray k n₀ =>
        have hb := decodeItem_openArray_bounds hd
        rw [hd] at h
        rw [decodeItem_openArray_ext t hd]
        dsimp only at h ⊢
        obtain ⟨n₁, hx, rfl⟩ := addConsumed_eq_complete h
        rw [List.drop_append_of_le_length hb.2]
        have hlt : (s.drop n₀).length < g := by simp [List.length_drop]; omega
        have hlt2 : (s.drop n₀ ++ t).length < g' := by
          simp only [List.length_append, List.length_drop] at h2 ⊢; omega
        rw [ih t hlt hlt2 hx]
        rfl

/-- A protocol error detected in the buffered bytes is insensitive to further
bytes arriving after them: same error, same progress point, same stack. -/
theorem runSteps_ext_protoErr : ∀ {f : Nat} {s : List Char} {st : List Frame}
    {m : String} {n : Nat} {st₂ : List Frame} (t : List Char) {f' : Nat},
    s.length < f → (s ++ t).length < f' →
    runSteps f s st = .protoErr m n st₂ →
    runSteps f' (s ++ t) st = .protoErr m n st₂ := by
  intro f
  induction f with
  | zero => intro s st m n st₂ t f' h1 h2 h; exact absurd h1 (Nat.not_lt_zero _)
  | succ g ih =>
    intro s st m n st₂ t f' h1 h2 h
    cases f' with
    | zero => exact absurd h2 (Nat.not_lt_zero _)
    | succ g' =>
      simp only [runSteps] at h ⊢
      cases hd : decodeItem s with
      | incomplete => rw [hd] at h; simp at h
      | protoErr m₀ =>
        rw [hd] at h
        rw [decodeItem_protoErr_ext t hd]
        dsimp only at h ⊢
        exact h
      | value v₀ n₀ =>
        have hb := decodeItem_value_bounds hd
        rw [hd] at h
        rw [decodeItem_value_ext t hd]
        dsimp only at h ⊢
        cases hat : attachValue st v₀ with
        | inr r => rw [hat] at h; dsimp only at h; cases h
        | inl st' =>
          rw [hat] at h
          dsimp only at h ⊢
          obtain ⟨n₁, hx, rfl⟩ := addConsumed_eq_protoErr h
          rw [List.drop_append_of_le_length hb.2]
          have hlt : (s.drop n₀).length < g := by simp [List.length_drop]; omega
          have hlt2 : (s.drop n₀ ++ t).length < g' := by
            simp only [List.length_append, List.length_drop] at h2 ⊢; omega
          rw [ih t hlt hlt2 hx]
          rfl
      | openArray k n₀ =>
        have hb := decodeItem_openArray_bounds hd
        rw [hd] at h
        rw [decodeItem_openArray_ext t hd]
        dsimp only at h ⊢
        obtain ⟨n₁, hx, rfl⟩ := addConsumed_eq_protoErr h
        rw [List.drop_append_of_le_length hb.2]
        have hlt : (s.drop n₀).length < g := by simp [List.length_drop]; omega
        have hlt2 : (s.drop n₀ ++ t).length < g' := by
          simp only [List.length_append, List.length_drop] at h2 ⊢; omega
        rw [ih t hlt hlt2 hx]
        rfl

/-- Resumption correctness: when the step loop stalls after consuming `n`
bytes and leaving stack `st'`, running it over an extended buffer is the
same as resuming from the recorded progress point — no byte is lost or
re-consumed, and the stalled step was never partially applied. -/
theorem runSteps_ext_incomplete : ∀ {f : Nat} {s : List Char} {st : List Frame}
    {n : Nat} {st' : List Frame} (t : List Char) {f' : Nat},
    s.length < f → (s ++ t).length < f' →
    runSteps f s st = .incomplete n st' →
    runSteps f' (s ++ t) st = addConsumed n (runSteps f' (s.drop n ++ t) st') := by
  intro f
  induction f with
  | zero => intro s st n st' t f' h1 h2 h; exact absurd h1 (Nat.not_lt_zero _)
  | succ g ih =>
    intro s st n st' t f' h1 h2 h
    cases f' with
    | zero => exact absurd h2 (Nat.not_lt_zero _)
    | succ g' =>
      simp only [runSteps] at h
      cases hd : decodeItem s with
      | incomplete =>
        rw [hd] at h
        dsimp only at h
        injection h with hn hst
        subst hn; subst hst
        rw [List.drop_zero, addConsumed_zero]
      | protoErr m => rw [hd] at h; simp at h
      | value v₀ n₀ =>
        have hb := decodeItem_value_bounds hd
        rw [hd] at h
        dsimp only at h
        cases hat : attachValue st v₀ with
        | inr r => rw [hat] at h; dsimp only at h; cases h
        | inl st₂ =>
          rw [hat] at h
          dsimp only at h
          obtain ⟨n₁, hx, rfl⟩ := addConsumed_eq_incomplete h
          rw [runSteps_succ g' (s ++ t) st]
          rw [decodeItem_value_ext t hd]
          dsimp only
          rw [hat]
          dsimp only
          rw [List.drop_append_of_le_length hb.2]
          have hlt : (s.drop n₀).length < g := by simp [List.length_drop]; omega
          have hlt2 : (s.drop n₀ ++ t).length < g' := by
            simp only [List.length_append, List.length_drop] at h2 ⊢; omega
          rw [ih t hlt hlt2 hx]
          rw [addConsumed_add]
          rw [List.drop_drop]
          have hlen3 : (s.drop (n₀ + n₁) ++ t).length < g' := by
            simp only [List.length_append, List.length_drop] at h2 ⊢; omega
          rw [runSteps_fuel hlen3 (by simp only [List.length_append, List.length_drop] at h2 ⊢; omega :
            (s.drop (n₀ + n₁) ++ t).length < g' + 1)]
      | openArray k n₀ =>
        have hb := decodeItem_openArray_bounds hd
        rw [hd] at h
        dsimp only at h
        obtain ⟨n₁, hx, rfl⟩ := addConsumed_eq_incomplete h
        rw [runSteps_succ g' (s ++ t) st]
        rw [decodeItem_openArray_ext t hd]
        dsimp only
        rw [List.drop_append_of_le_length hb.2]
        have hlt : (s.drop n₀).length < g := by simp [List.length_drop]; omega
        have hlt2 : (s.drop n₀ ++ t).length < g' := by
          simp only [List.length_append, List.length_drop] at h2 ⊢; omega
        rw [ih t hlt hlt2 hx]
        rw [addConsumed_add]
        rw [List.drop_drop]
        have hlen3 : (s.drop (n₀ + n₁) ++ t).length < g' := by
          simp only [List.length_append, List.length_drop] at h2 ⊢; omega
        rw [runSteps_fuel hlen3 (by simp only [List.length_append, List.length_drop] at h2 ⊢; omega :
          (s.drop (n₀ + n₁) ++ t).length < g' + 1)]

/-! ### Reader-level lemmas -/

theorem getReply_err (buf : List Char) (pos : Nat) (stack : List Frame) (m : String) :
    getReply ⟨buf, pos, stack, some m⟩ = (.protocolError m, ⟨buf, pos, stack, some m⟩) := rfl

theorem getReply_none (buf : List Char) (pos : Nat) (stack : List Frame) :
    getReply ⟨buf, pos, stack, none⟩ =
      match runSteps ((buf.drop pos).length + 1) (buf.drop pos) stack with
      | .complete v n => (.complete v, ⟨buf.drop (pos + n), 0, [], none⟩)
      | .incomplete n st => (.incomplete, ⟨buf, pos + n, st, none⟩)
      | .protoErr m n st => (.protocolError m, ⟨buf, pos + n, st, some m⟩) := rfl

theorem feed_def (buf : List Char) (pos : Nat) (stack : List Frame) (err : Option String)
    (t : List Char) : feed ⟨buf, pos, stack, err⟩ t = ⟨buf ++ t, pos, stack, err⟩ := rfl

/-- Feeding the empty chunk changes nothing. -/
theorem feed_nil (r : Reader) : feed r [] = r := by
  obtain ⟨buf, pos, stack, err⟩ := r
  simp [feed]

/-- Feeding twice is feeding the concatenation. -/
theorem feed_feed (r : Reader) (a b : List Char) : feed (feed r a) b = feed r (a ++ b) := by
  obtain ⟨buf, pos, stack, err⟩ := r
  simp [feed]

/-- Feeding preserves the cursor bound. -/
theorem feed_pos_le {r : Reader} (h : r.pos ≤ r.buf.length) (t : List Char) :
    (feed r t).pos ≤ (feed r t).buf.length := by
  obtain ⟨buf, pos, stack, err⟩ := r
  dsimp only at h
  simp only [feed]
  simp only [List.length_append]
  omega

/-- The cursor stays within the accumulation buffer across `getReply`. -/
theorem getReply_pos_le {r : Reader} (hwf : r.pos ≤ r.buf.length) :
    (getReply r).2.pos ≤ (getReply r).2.buf.length := by
  obtain ⟨buf, pos, stack, err⟩ := r
  dsimp only at hwf
  cases err with
  | some m => exact hwf
  | none =>
    rw [getReply_none]
    cases hrs : runSteps ((buf.drop pos).length + 1) (buf.drop pos) stack with
    | complete v n => simp
    | incomplete n st =>
      have hc := @runSteps_consumed_le ((buf.drop pos).length + 1) (buf.drop pos) stack
      rw [hrs] at hc
      simp only [RunResult.consumed, List.length_drop] at hc
      dsimp only
      omega
    | protoErr m n st =>
      have hc := @runSteps_consumed_le ((buf.drop pos).length + 1) (buf.drop pos) stack
      rw [hrs] at hc
      simp only [RunResult.consumed, List.length_drop] at hc
      dsimp only
      omega

/-- A completed `getReply` strictly shrinks the accumulation buffer. -/
theorem getReply_complete_shrink {r : Reader} {v : Reply} {r' : Reader}
    (h : getReply r = (.complete v, r')) : r'.buf.length < r.buf.length := by
  obtain ⟨buf, pos, stack, err⟩ := r
  cases err with
  | some m => rw [getReply_err] at h; simp at h
  | none =>
    rw [getReply_none] at h
    cases hrs : runSteps ((buf.drop pos).length + 1) (buf.drop pos) stack with
    | complete v₀ n =>
      rw [hrs] at h
      dsimp only at h
      injection h with h1 h2
      subst h2
      have hpos := runSteps_complete_pos hrs
      have hc := @runSteps_consumed_le ((buf.drop pos).length + 1) (buf.drop pos) stack
      rw [hrs] at hc
      simp only [RunResult.consumed, List.length_drop] at hc
      simp only [List.length_drop]
      omega
    | incomplete n st => rw [hrs] at h; simp at h
    | protoErr m n st => rw [hrs] at h; simp at h

/-- On Incomplete, neither the buffered bytes nor the error slot change. -/
theorem getReply_incomplete_state {r : Reader} {r' : Reader}
    (h : getReply r = (.incomplete, r')) : r'.buf = r.buf ∧ r.err = none ∧ r'.err = none := by
  obtain ⟨buf, pos, stack, err⟩ := r
  cases err with
  | some m => rw [getReply_err] at h; simp at h
  | none =>
    rw [getReply_none] at h
    cases hrs : runSteps ((buf.drop pos).length + 1) (buf.drop pos) stack with
    | complete v₀ n => rw [hrs] at h; simp at h
    | incomplete n st =>
      rw [hrs] at h
      dsimp only at h
      injection h with h1 h2
      subst h2
      exact ⟨rfl, rfl, rfl⟩
    | protoErr m n st => rw [hrs] at h; simp at h

/-- A stalled parser stays stalled (and completely unchanged) until new
bytes are fed. -/
theorem getReply_incomplete_idem {r r' : Reader}
    (h : getReply r = (.incomplete, r')) : getReply r' = (.incomplete, r') := by
  obtain ⟨buf, pos, stack, err⟩ := r
  cases err with
  | some m => rw [getReply_err] at h; simp at h
  | none =>
    rw [getReply_none] at h
    cases hrs : runSteps ((buf.drop pos).length + 1) (buf.drop pos) stack with
    | complete v₀ n => rw [hrs] at h; simp at h
    | protoErr m n st => rw [hrs] at h; simp at h
    | incomplete n st =>
      rw [hrs] at h
      dsimp only at h
      injection h with h1 h2
      subst h2
      have hres := @runSteps_ext_incomplete ((buf.drop pos).length + 1) (buf.drop pos)
        stack n st [] ((buf.drop pos).length + 1) (Nat.lt_succ_self _)
        (by simp) hrs
      rw [List.append_nil, List.append_nil] at hres
      rw [hrs] at hres
      obtain ⟨n', hx, hn⟩ := addConsumed_eq_incomplete hres.symm
      have hn0 : n' = 0 := by omega
      subst hn0
      rw [getReply_none]
      have hdd : (buf.drop (pos + n)) = (buf.drop pos).drop n := (List.drop_drop n pos buf).symm
      rw [hdd]
      have hfa : runSteps (((buf.drop pos).drop n).length + 1) ((buf.drop pos).drop n) st =
          runSteps ((buf.drop pos).length + 1) ((buf.drop pos).drop n) st :=
        runSteps_fuel (Nat.lt_succ_self _) (by simp [List.length_drop]; omega)
      rw [hfa, hx]
      simp

/-- A reply already completed out of the buffered bytes is unaffected by a
later `feed`: the same reply comes back and the states stay in lockstep. -/
theorem getReply_complete_feed {r : Reader} {v : Reply} {r' : Reader} (t : List Char)
    (hwf : r.pos ≤ r.buf.length) (h : getReply r = (.complete v, r')) :
    getReply (feed r t) = (.complete v, feed r' t) := by
  obtain ⟨buf, pos, stack, err⟩ := r
  dsimp only at hwf
  cases err with
  | some m => rw [getReply_err] at h; simp at h
  | none =>
    rw [getReply_none] at h
    have hdrop : (buf ++ t).drop pos = buf.drop pos ++ t :=
      List.drop_append_of_le_length hwf
    cases hrs : runSteps ((buf.drop pos).length + 1) (buf.drop pos) stack with
    | incomplete n st => rw [hrs] at h; simp at h
    | protoErr m n st => rw [hrs] at h; simp at h
    | complete v₀ n =>
      rw [hrs] at h
      dsimp only at h
      injection h with h1 h2
      injection h1 with hv
      subst hv; subst h2
      have hc := @runSteps_consumed_le ((buf.drop pos).length + 1) (buf.drop pos) stack
      rw [hrs] at hc
      simp only [RunResult.consumed, List.length_drop] at hc
      rw [feed_def, feed_def, getReply_none, hdrop]
      rw [runSteps_ext_complete t (Nat.lt_succ_self _) (Nat.lt_succ_self _) hrs]
      dsimp only
      rw [List.drop_append_of_le_length (by omega)]

/-- A protocol error already detected in the buffered bytes is unaffected by
a later `feed`: same error, and the states stay in lockstep. -/
theorem getReply_protoErr_feed {r : Reader} {m : String} {r' : Reader} (t : List Char)
    (hwf : r.pos ≤ r.buf.length) (h : getReply r = (.protocolError m, r')) :
    getReply (feed r t) = (.protocolError m, feed r' t) := by
  obtain ⟨buf, pos, stack, err⟩ := r
  dsimp only at hwf
  cases err with
  | some m₀ =>
    rw [getReply_err] at h
    injection h with h1 h2
    injection h1 with hm
    subst hm; subst h2
    rw [feed_def, getReply_err]
  | none =>
    rw [getReply_none] at h
    have hdrop : (buf ++ t).drop pos = buf.drop pos ++ t :=
      List.drop_append_of_le_length hwf
    cases hrs : runSteps ((buf.drop pos).length + 1) (buf.drop pos) stack with
    | incomplete n st => rw [hrs] at h; simp at h
    | complete v₀ n => rw [hrs] at h; simp at h
    | protoErr m₀ n st =>
      rw [hrs] at h
      dsimp only at h
      injection h with h1 h2
      injection h1 with hm
      subst hm; subst h2
      rw [feed_def, feed_def, getReply_none, hdrop]
      rw [runSteps_ext_protoErr t (Nat.lt_succ_self _) (Nat.lt_succ_self _) hrs]

/-- After a stalled `getReply`, feeding more bytes and retrying behaves
exactly as if the retry had started from the recorded progress point: the
stall is transparent to every future call. -/
theorem getReply_incomplete_feed {r : Reader} {r' : Reader} (t : List Char)
    (hwf : r.pos ≤ r.buf.length) (h : getReply r = (.incomplete, r')) :
    getReply (feed r t) = getReply (feed r' t) := by
  obtain ⟨buf, pos, stack, err⟩ := r
  dsimp only at hwf
  cases err with
  | some m => rw [getReply_err] at h; simp at h
  | none =>
    rw [getReply_none] at h
    have hdrop : (buf ++ t).drop pos = buf.drop pos ++ t :=
      List.drop_append_of_le_length hwf
    cases hrs : runSteps ((buf.drop pos).length + 1) (buf.drop pos) stack with
    | complete v₀ n => rw [hrs] at h; simp at h
    | protoErr m n st => rw [hrs] at h; simp at h
    | incomplete n st =>
      rw [hrs] at h
      dsimp only at h
      injection h with h1 h2
      subst h2
      have hc := @runSteps_consumed_le ((buf.drop pos).length + 1) (buf.drop pos) stack
      rw [hrs] at hc
      simp only [RunResult.consumed, List.length_drop] at hc
      rw [feed_def, feed_def, getReply_none, getReply_none, hdrop]
      have hres := @runSteps_ext_incomplete ((buf.drop pos).length + 1) (buf.drop pos)
        stack n st t ((buf.drop pos ++ t).length + 1) (Nat.lt_succ_self _)
        (Nat.lt_succ_self _) hrs
      rw [hres]
      have hdrop2 : (buf ++ t).drop (pos + n) = (buf.drop pos).drop n ++ t := by
        rw [List.drop_drop]
        exact List.drop_append_of_le_length (by omega)
      rw [hdrop2]
      have hfa : runSteps (((buf.drop pos).drop n ++ t).length + 1)
          ((buf.drop pos).drop n ++ t) st =
          runSteps ((buf.drop pos ++ t).length + 1) ((buf.drop pos).drop n ++ t) st :=
        runSteps_fuel (Nat.lt_succ_self _) (by simp [List.length_drop]; omega)
      rw [hfa]
      cases hX : runSteps ((buf.drop pos ++ t).length + 1) ((buf.drop pos).drop n ++ t) st with
      | complete w m =>
        dsimp only [addConsumed]
        have : pos + (n + m) = pos + n + m := by omega
        rw [this]
      | incomplete m st₂ =>
        dsimp only [addConsumed]
        have : pos + (n + m) = pos + n + m := by omega
        rw [this]
      | protoErr e m st₂ =>
        dsimp only [addConsumed]
        have : pos + (n + m) = pos + n + m := by omega
        rw [this]

/-! ### Drain lemmas -/

theorem getReply_protoErr_err {r : Reader} {m : String} {r' : Reader}
    (h : getReply r = (.protocolError m, r')) : r'.err = some m := by
  obtain ⟨buf, pos, stack, err⟩ := r
  cases err with
  | some m₀ =>
    rw [getReply_err] at h
    injection h with h1 h2
    injection h1 with hm
    subst hm; subst h2
    rfl
  | none =>
    rw [getReply_none] at h
    cases hrs : runSteps ((buf.drop pos).length + 1) (buf.drop pos) stack with
    | complete v₀ n => rw [hrs] at h; simp at h
    | incomplete n st => rw [hrs] at h; simp at h
    | protoErr m₀ n st =>
      rw [hrs] at h
      dsimp only at h
      injection h with h1 h2
      injection h1 with hm
      subst hm; subst h2
      rfl

theorem getReply_of_err {r : Reader} {m : String} (h : r.err = some m) :
    getReply r = (.protocolError m, r) := by
  obtain ⟨buf, pos, stack, err⟩ := r
  dsimp only at h
  subst h
  rfl

theorem drainF_fuel : ∀ {f₁ f₂ : Nat} {r : Reader},
    r.buf.length < f₁ → r.buf.length < f₂ → drainF f₁ r = drainF f₂ r := by
  intro f₁
  induction f₁ with
  | zero => intro f₂ r h1 h2; exact absurd h1 (Nat.not_lt_zero _)
  | succ g ih =>
    intro f₂ r h1 h2
    cases f₂ with
    | zero => exact absurd h2 (Nat.not_lt_zero _)
    | succ g₂ =>
      simp only [drainF]
      cases hgr : getReply r with
      | mk o r' =>
        cases o with
        | complete v =>
          have hs := getReply_complete_shrink hgr
          dsimp only
          rw [@ih g₂ r' (by omega) (by omega)]
        | incomplete => rfl
        | protocolError m => rfl

theorem drainF_succ (f : Nat) (r : Reader) :
    drainF (f + 1) r =
      match getReply r with
      | (.complete v, r') => (v :: (drainF f r').1, (drainF f r').2)
      | (.incomplete, r') => ([], r')
      | (.protocolError _, r') => ([], r') := rfl

theorem drain_complete {r : Reader} {v : Reply} {r' : Reader}
    (h : getReply r = (.complete v, r')) :
    drain r = (v :: (drain r').1, (drain r').2) := by
  have hs := getReply_complete_shrink h
  unfold drain
  rw [drainF_succ r.buf.length r, h]
  dsimp only
  rw [@drainF_fuel r.buf.length (r'.buf.length + 1) r' hs (Nat.lt_succ_self _)]

theorem drain_incomplete {r : Reader} {r' : Reader}
    (h : getReply r = (.incomplete, r')) : drain r = ([], r') := by
  unfold drain
  simp only [drainF]
  rw [h]

theorem drain_protoErr {r : Reader} {m : String} {r' : Reader}
    (h : getReply r = (.protocolError m, r')) : drain r = ([], r') := by
  unfold drain
  simp only [drainF]
  rw [h]

theorem drain_pos_le : ∀ {r : Reader}, r.pos ≤ r.buf.length →
    (drain r).2.pos ≤ (drain r).2.buf.length := by
  suffices h : ∀ (N : Nat) (r : Reader), r.buf.length < N → r.pos ≤ r.buf.length →
      (drain r).2.pos ≤ (drain r).2.buf.length by
    intro r hwf
    exact h (r.buf.length + 1) r (Nat.lt_succ_self _) hwf
  intro N
  induction N with
  | zero => intro r h1; exact absurd h1 (Nat.not_lt_zero _)
  | succ g ih =>
    intro r h1 hwf
    cases hgr : getReply r with
    | mk o r' =>
      cases o with
      | complete v =>
        have hs := getReply_complete_shrink hgr
        have hwf' : r'.pos ≤ r'.buf.length := by
          have := getReply_pos_le hwf
          rw [hgr] at this
          exact this
        rw [drain_complete hgr]
        exact ih r' (by omega) hwf'
      | incomplete =>
        rw [drain_incomplete hgr]
        have := getReply_pos_le hwf
        rw [hgr] at this
        exact this
      | protocolError m =>
        rw [drain_protoErr hgr]
        have := getReply_pos_le hwf
        rw [hgr] at this
        exact this

theorem drain_snd_settled : ∀ {r : Reader}, Settled (drain r).2 := by
  suffices h : ∀ (N : Nat) (r : Reader), r.buf.length < N → Settled (drain r).2 by
    intro r
    exact h (r.buf.length + 1) r (Nat.lt_succ_self _)
  intro N
  induction N with
  | zero => intro r h1; exact absurd h1 (Nat.not_lt_zero _)
  | succ g ih =>
    intro r h1
    cases hgr : getReply r with
    | mk o r' =>
      cases o with
      | complete v =>
        have hs := getReply_complete_shrink hgr
        rw [drain_complete hgr]
        exact ih r' (by omega)
      | incomplete =>
        rw [drain_incomplete hgr]
        exact drain_incomplete (getReply_incomplete_idem hgr)
      | protocolError m =>
        rw [drain_protoErr hgr]
        exact drain_protoErr (getReply_of_err (getReply_protoErr_err hgr))

/-- Central composition property: feeding extra bytes after some bytes have
already been processed first flushes every reply already decodable, then
continues on the extension from the settled state — no reply is lost,
duplicated or changed by the split. -/
theorem drain_feed (t : List Char) : ∀ {r : Reader}, r.pos ≤ r.buf.length →
    drain (feed r t) =
      ((drain r).1 ++ (drain (feed (drain r).2 t)).1, (drain (feed (drain r).2 t)).2) := by
  suffices h : ∀ (N : Nat) (r : Reader), r.buf.length < N → r.pos ≤ r.buf.length →
      drain (feed r t) =
        ((drain r).1 ++ (drain (feed (drain r).2 t)).1, (drain (feed (drain r).2 t)).2) by
    intro r hwf
    exact h (r.buf.length + 1) r (Nat.lt_succ_self _) hwf
  intro N
  induction N with
  | zero => intro r h1; exact absurd h1 (Nat.not_lt_zero _)
  | succ g ih =>
    intro r h1 hwf
    cases hgr : getReply r with
    | mk o r' =>
      cases o with
      | complete v =>
        have hs := getReply_complete_shrink hgr
        have hwf' : r'.pos ≤ r'.buf.length := by
          have := getReply_pos_le hwf
          rw [hgr] at this
          exact this
        rw [drain_complete (getReply_complete_feed t hwf hgr)]
        rw [drain_complete hgr]
        rw [ih r' (by omega) hwf']
        rfl
      | incomplete =>
        have hst := getReply_incomplete_state hgr
        have heq := getReply_incomplete_feed t hwf hgr
        rw [drain_incomplete hgr]
        have hbuf : (feed r t).buf = (feed r' t).buf := by
          obtain ⟨b1, p1, s1, e1⟩ := r
          obtain ⟨b2, p2, s2, e2⟩ := r'
          simp only [feed]
          simp only at hst
          rw [hst.1]
        have : drain (feed r t) = drain (feed r' t) := by
          unfold drain
          rw [hbuf]
          simp only [drainF]
          rw [heq]
        rw [this]
        simp
      | protocolError m =>
        have herr := getReply_protoErr_err hgr
        rw [drain_protoErr hgr]
        rw [drain_protoErr (getReply_protoErr_feed t hwf hgr)]
        have herr2 : (feed r' t).err = some m := by
          obtain ⟨b2, p2, s2, e2⟩ := r'
          simp only at herr
          simp only [feed]
          exact herr
        rw [drain_protoErr (getReply_of_err herr2)]
        simp

/-- Chunked operation equals one-shot operation, from any settled state. -/
theorem runChunks_drain : ∀ (chunks : List (List Char)) (r : Reader),
    r.pos ≤ r.buf.length → Settled r →
    runChunks r chunks = drain (feed r chunks.flatten) := by
  intro chunks
  induction chunks with
  | nil =>
    intro r hwf hs
    simp only [runChunks, List.flatten_nil, feed_nil]
    exact hs.symm
  | cons c cs ih =>
    intro r hwf hs
    simp only [runChunks]
    have hwf1 : (feed r c).pos ≤ (feed r c).buf.length := by
      obtain ⟨buf, pos, stack, err⟩ := r
      simp only [feed] at hwf ⊢
      simp only [List.length_append]
      omega
    have hwf2 : (drain (feed r c)).2.pos ≤ (drain (feed r c)).2.buf.length :=
      drain_pos_le hwf1
    rw [ih (drain (feed r c)).2 hwf2 drain_snd_settled]
    rw [List.flatten_cons, ← feed_feed]
    rw [drain_feed cs.flatten hwf1]

/-- Two parser states with the same buffered bytes and the same `getReply`
behaviour drain identically. -/
theorem drain_congr {a b : Reader} (hbuf : a.buf = b.buf)
    (h : getReply a = getReply b) : drain a = drain b := by
  unfold drain
  rw [hbuf]
  rw [drainF_succ b.buf.length a, drainF_succ b.buf.length b, h]

/-! ### Claim theorems -/

/-- C5: grammar decoding on concrete encodings.  Feeding the complete
encoding `*2\r\n$3\r\nfoo\r\n:42\r\n` and calling `getReply` yields
`Array [BulkString "foo", Integer 42]`; feeding `$-1\r\n` yields `Nil`;
feeding `-ERR bad\r\n` yields `Error "ERR bad"` with the leading sigil
stripped from the message text.  In each case the whole encoding is
consumed and the parser returns to the fresh state. -/
theorem c5_concrete_decodes :
    getReply (feed initReader ("*2\r\n$3\r\nfoo\r\n:42\r\n".toList)) =
      (.complete (.array [.bulk "foo".toList, .integer 42]), ⟨[], 0, [], none⟩) ∧
    getReply (feed initReader ("$-1\r\n".toList)) =
      (.complete .nil, ⟨[], 0, [], none⟩) ∧
    getReply (feed initReader ("-ERR bad\r\n".toList)) =
      (.complete (.error "ERR bad".toList), ⟨[], 0, [], none⟩) := by
  refine ⟨?_, ?_, ?_⟩ <;> rfl

/-- C6: an array header with the sentinel count `-1` decodes to `Nil`, while
an array header with count `0` decodes immediately to the empty `Array`
without pushing a decode frame (the resulting state has an empty stack and
the reply completed in a single call); the two reply values are never
equal. -/
theorem c6_sentinel_vs_empty_array :
    getReply (feed initReader ("*-1\r\n".toList)) =
      (.complete .nil, ⟨[], 0, [], none⟩) ∧
    getReply (feed initReader ("*0\r\n".toList)) =
      (.complete (.array []), ⟨[], 0, [], none⟩) ∧
    Reply.nil ≠ Reply.array [] := by
  refine ⟨rfl, rfl, fun h => Reply.noConfusion h⟩

/-- C2 counterexample: the claim says an Incomplete `getReply` leaves the
cursor and the frame stack exactly as they were before the call.  Feeding
the lone array header `*1\r\n` refutes it: `getReply` returns Incomplete,
yet the cursor has advanced past the header (4 ≠ 0) and a frame has been
pushed (stack length 1 ≠ 0). -/
theorem c2_counterexample :
    (getReply (feed initReader ("*1\r\n".toList))).1 = .incomplete ∧
    (getReply (feed initReader ("*1\r\n".toList))).2.pos ≠
      (feed initReader ("*1\r\n".toList)).pos ∧
    (getReply (feed initReader ("*1\r\n".toList))).2.stack.length ≠
      (feed initReader ("*1\r\n".toList)).stack.length := by
  refine ⟨rfl, by decide, by decide⟩

/-- C2 (amended): when `getReply` returns Incomplete, no byte is removed
from the accumulation buffer and no error is recorded; the cursor and frame
stack may have advanced past fully-applied decode steps, but the stalled
step was never partially applied: after any further `feed`, draining from
the pre-call state and from the post-call state yields exactly the same
replies and the same final state. -/
theorem c2_incomplete_no_partial_mutation {r r' : Reader}
    (hwf : r.pos ≤ r.buf.length) (h : getReply r = (.incomplete, r')) :
    r'.buf = r.buf ∧ r.err = none ∧ r'.err = none ∧
    ∀ t, drain (feed r t) = drain (feed r' t) := by
  obtain ⟨hbuf, he1, he2⟩ := getReply_incomplete_state h
  refine ⟨hbuf, he1, he2, fun t => ?_⟩
  have heq := getReply_incomplete_feed t hwf h
  have hbuf' : (feed r t).buf = (feed r' t).buf := by
    obtain ⟨b1, p1, s1, e1⟩ := r
    obtain ⟨b2, p2, s2, e2⟩ := r'
    simp only at hbuf
    simp only [feed]
    rw [hbuf]
  exact drain_congr hbuf' heq

/-- Witness for the amended C2 at a concrete input: after `*1\r\n` stalls,
the buffer is untouched and feeding the element `:7\r\n` drains the same
result from the pre-call and post-call states. -/
theorem c2_incomplete_no_partial_mutation_witness :
    ((getReply (feed initReader ("*1\r\n".toList))).2).buf =
      (feed initReader ("*1\r\n".toList)).buf ∧
    drain (feed (feed initReader ("*1\r\n".toList)) (":7\r\n".toList)) =
      drain (feed ((getReply (feed initReader ("*1\r\n".toList))).2) (":7\r\n".toList)) := by
  have h := @c2_incomplete_no_partial_mutation
    (feed initReader ("*1\r\n".toList))
    ((getReply (feed initReader ("*1\r\n".toList))).2)
    (by decide) rfl
  exact ⟨h.1, h.2.2.2 (":7\r\n".toList)⟩

/-- C4: protocol-error stickiness.  Once `getReply` reports a ProtocolError,
every subsequent `getReply` call on that parser instance (any number of
calls later) returns the very same error with the state unchanged — the
parser never resynchronises and produces no further replies. -/
theorem c4_protocol_error_sticky {r r' : Reader} {m : String}
    (h : getReply r = (.protocolError m, r')) :
    ∀ k, getReply (getReplyIter k r') = (.protocolError m, r') := by
  have hone : getReply r' = (.protocolError m, r') :=
    getReply_of_err (getReply_protoErr_err h)
  intro k
  induction k with
  | zero => exact hone
  | succ n ih =>
    show getReply (getReply (getReplyIter n r')).2 = _
    rw [ih]
    exact hone

/-- Witness for C4: the malformed bulk-length header `$abc\r\n` and the
unknown sigil `^oops\r\n` both yield a ProtocolError on the first call, and
later calls keep returning the identical error. -/
theorem c4_protocol_error_sticky_witness :
    getReply (getReplyIter 1 ((getReply (feed initReader ("$abc\r\n".toList))).2)) =
      (.protocolError "bad bulk length",
        (getReply (feed initReader ("$abc\r\n".toList))).2) ∧
    getReply (getReplyIter 0 ((getReply (feed initReader ("^oops\r\n".toList))).2)) =
      (.protocolError "unknown sigil",
        (getReply (feed initReader ("^oops\r\n".toList))).2) :=
  ⟨@c4_protocol_error_sticky (feed initReader ("$abc\r\n".toList)) _ _ rfl 1,
   @c4_protocol_error_sticky (feed initReader ("^oops\r\n".toList)) _ _ rfl 0⟩

/-! ### Helper equations for concrete grammar computations -/

theorem getReply_init_feed (l : List Char) :
    getReply (feed initReader l) = getReply ⟨l, 0, [], none⟩ := rfl

theorem decodeItem_bulk (rest : List Char) :
    decodeItem ('$' :: rest) =
      match readLine rest with
      | none => .incomplete
      | some (l, rest2) =>
        match parseLine l with
        | none => .protoErr "bad bulk length"
        | some i =>
          if i = -1 then .value .nil (3 + l.length)
          else if i < 0 then .protoErr "bad bulk length"
          else if rest2.length < i.toNat + 2 then .incomplete
          else .value (.bulk (rest2.take i.toNat)) (3 + l.length + i.toNat + 2) := rfl

/-- C7: bulk-length validation for a header `$<length>`.  A header line that
parses to the sentinel `-1` yields `Nil` and consumes exactly the header; a
header parsing to a non-negative `k` followed by exactly `k` payload bytes
and the two-byte terminator yields `BulkString` of precisely those bytes,
consuming nothing further (the bytes after the terminator remain buffered);
every header parsing to a negative value other than `-1` makes `getReply`
return a ProtocolError. -/
theorem c7_bulk_length_validation :
    (∀ (line rest : List Char), '\r' ∉ line → parseLine line = some (-1) →
      getReply (feed initReader ('$' :: (line ++ '\r' :: '\n' :: rest))) =
        (.complete .nil, ⟨rest, 0, [], none⟩)) ∧
    (∀ (line payload rest : List Char) (k : Nat), '\r' ∉ line →
      parseLine line = some (k : Int) → payload.length = k →
      getReply (feed initReader
          ('$' :: (line ++ '\r' :: '\n' :: (payload ++ '\r' :: '\n' :: rest)))) =
        (.complete (.bulk payload), ⟨rest, 0, [], none⟩)) ∧
    (∀ (line rest : List Char) (i : Int), '\r' ∉ line → parseLine line = some i →
      i < -1 →
      (getReply (feed initReader ('$' :: (line ++ '\r' :: '\n' :: rest)))).1 =
        .protocolError "bad bulk length") := by
  refine ⟨?_, ?_, ?_⟩
  · intro line rest hcr hp
    rw [getReply_init_feed, getReply_none]
    simp only [List.drop_zero]
    rw [runSteps_succ, decodeItem_bulk, readLine_cat rest hcr]
    dsimp only
    rw [hp]
    dsimp only
    rw [if_pos rfl]
    dsimp only [attachValue]
    have hdrop : (('$' :: (line ++ '\r' :: '\n' :: rest)).drop (0 + (3 + line.length)))
        = rest := by
      rw [show ('$' :: (line ++ '\r' :: '\n' :: rest))
        = ('$' :: line ++ ['\r', '\n']) ++ rest by simp]
      rw [show 0 + (3 + line.length) = ('$' :: line ++ ['\r', '\n']).length by
        simp [List.length_append]; omega]
      exact List.drop_left _ _
    rw [hdrop]
  · intro line payload rest k hcr hp hlen
    rw [getReply_init_feed, getReply_none]
    simp only [List.drop_zero]
    rw [runSteps_succ, decodeItem_bulk, readLine_cat (payload ++ '\r' :: '\n' :: rest) hcr]
    dsimp only
    rw [hp]
    dsimp only
    rw [if_neg (by omega), if_neg (by omega)]
    rw [if_neg (by simp only [Int.toNat_natCast, List.length_append, List.length_cons]; omega)]
    rw [show ((k : Int)).toNat = payload.length by simp [hlen]]
    rw [List.take_left]
    dsimp only [attachValue]
    have hdrop : (('$' :: (line ++ '\r' :: '\n' :: (payload ++ '\r' :: '\n' :: rest))).drop
        (0 + (3 + line.length + payload.length + 2))) = rest := by
      rw [show ('$' :: (line ++ '\r' :: '\n' :: (payload ++ '\r' :: '\n' :: rest)))
        = ('$' :: line ++ ['\r', '\n'] ++ payload ++ ['\r', '\n']) ++ rest by simp]
      rw [show 0 + (3 + line.length + payload.length + 2)
        = ('$' :: line ++ ['\r', '\n'] ++ payload ++ ['\r', '\n']).length by
        simp [List.length_append]; omega]
      exact List.drop_left _ _
    rw [hdrop]
  · intro line rest i hcr hp hi
    rw [getReply_init_feed, getReply_none]
    simp only [List.drop_zero]
    rw [runSteps_succ, decodeItem_bulk, readLine_cat rest hcr]
    dsimp only
    rw [hp]
    dsimp only
    rw [if_neg (by omega), if_pos (by omega)]

/-- Witness for C7 at concrete inputs: `$-1\r\nX` yields `Nil` leaving `X`
buffered, `$3\r\nfoo\r\nX` yields `BulkString "foo"` leaving `X` buffered,
and `$-7\r\n` yields a ProtocolError. -/
theorem c7_bulk_length_validation_witness :
    getReply (feed initReader ('$' :: ("-1".toList ++ '\r' :: '\n' :: "X".toList))) =
      (.complete .nil, ⟨"X".toList, 0, [], none⟩) ∧
    getReply (feed initReader
        ('$' :: ("3".toList ++ '\r' :: '\n' :: ("foo".toList ++ '\r' :: '\n' :: "X".toList)))) =
      (.complete (.bulk "foo".toList), ⟨"X".toList, 0, [], none⟩) ∧
    (getReply (feed initReader ('$' :: ("-7".toList ++ '\r' :: '\n' :: [])))).1 =
      .protocolError "bad bulk length" :=
  ⟨c7_bulk_length_validation.1 "-1".toList "X".toList (by decide) (by decide),
   c7_bulk_length_validation.2.1 "3".toList "foo".toList "X".toList 3
     (by decide) (by decide) (by decide),
   c7_bulk_length_validation.2.2 "-7".toList [] (-7) (by decide) (by decide) (by decide)⟩

theorem initReader_settled : Settled initReader := rfl

/-- C1: incremental equivalence.  For every byte stream and every way of
splitting it into chunks (down to single bytes), feeding the chunks via
`feed` and repeatedly calling `getReply` after each chunk yields exactly
the same sequence of completed replies — and the same final parser state —
as feeding all the bytes in one call.  In particular this holds for every
valid wire encoding. -/
theorem c1_incremental_equivalence (chunks : List (List Char)) :
    runChunks initReader chunks = drain (feed initReader chunks.flatten) :=
  runChunks_drain chunks initReader (Nat.zero_le _) initReader_settled

/-! ### Nested-array encodings (depth-independence) -/

theorem nestEnc_length : ∀ d, (nestEnc d).length = 4 * d + 4 := by
  intro d
  induction d with
  | zero => rfl
  | succ n ih => simp only [nestEnc, List.length_cons, ih]; omega

/-- Decoding a depth-`d` nested encoding from any frame stack consumes it
whole and attaches the nested value, entirely via the frame stack. -/
theorem runSteps_nest : ∀ (d : Nat) (st : List Frame) (f : Nat), 4 * d + 4 < f →
    runSteps f (nestEnc d) st =
      match attachValue st (nestVal d) with
      | .inr r => .complete r (4 * d + 4)
      | .inl st' => .incomplete (4 * d + 4) st' := by
  intro d
  induction d with
  | zero =>
    intro st f hf
    cases f with
    | zero => omega
    | succ g =>
      dsimp only [nestEnc, nestVal]
      rw [runSteps_succ]
      rw [show decodeItem [':', '7', '\r', '\n'] = .value (.integer 7) 4 from rfl]
      dsimp only
      cases hat : attachValue st (Reply.integer 7) with
      | inr r => rfl
      | inl st' =>
        dsimp only
        rw [show List.drop 4 [':', '7', '\r', '\n'] = ([] : List Char) from rfl]
        cases g with
        | zero => omega
        | succ g₂ =>
          rw [runSteps_succ]
          rw [show decodeItem ([] : List Char) = .incomplete from rfl]
          rfl
  | succ n ih =>
    intro st f hf
    cases f with
    | zero => omega
    | succ g =>
      dsimp only [nestEnc]
      rw [runSteps_succ]
      rw [show decodeItem ('*' :: '1' :: '\r' :: '\n' :: nestEnc n) = .openArray 1 4 from rfl]
      dsimp only
      rw [show List.drop 4 ('*' :: '1' :: '\r' :: '\n' :: nestEnc n) = nestEnc n from rfl]
      rw [ih (Frame.mk 1 [] :: st) g (by omega)]
      rw [show attachValue (Frame.mk 1 [] :: st) (nestVal n)
        = attachValue st (.array [nestVal n]) from rfl]
      dsimp only [nestVal]
      cases hat : attachValue st (Reply.array [nestVal n]) with
      | inr r =>
        dsimp only [addConsumed]
        rw [show 4 + (4 * n + 4) = 4 * (n + 1) + 4 by omega]
      | inl st' =>
        dsimp only [addConsumed]
        rw [show 4 + (4 * n + 4) = 4 * (n + 1) + 4 by omega]

theorem drain_nestEnc (d : Nat) :
    drain (feed initReader (nestEnc d)) = ([nestVal d], ⟨[], 0, [], none⟩) := by
  have h1 : getReply (feed initReader (nestEnc d)) =
      (.complete (nestVal d), ⟨[], 0, [], none⟩) := by
    rw [getReply_init_feed, getReply_none]
    simp only [List.drop_zero]
    rw [runSteps_nest d [] ((nestEnc d).length + 1) (by rw [nestEnc_length]; omega)]
    rw [show attachValue [] (nestVal d) = Sum.inr (nestVal d) from rfl]
    dsimp only
    rw [show 0 + (4 * d + 4) = (nestEnc d).length by rw [nestEnc_length]; omega]
    rw [List.drop_length]
  rw [drain_complete h1]
  rw [show drain (⟨[], 0, [], none⟩ : Reader) = ([], ⟨[], 0, [], none⟩) from rfl]

theorem flatten_singletons : ∀ (l : List Char), (l.map (fun c => [c])).flatten = l := by
  intro l
  induction l with
  | nil => rfl
  | cons c cs ih => simp [ih]

/-- C9: depth-independent decoding.  For every nesting depth `d` (so in
particular every depth up to 10,000), the fully nested array encoding fed
one byte at a time decodes successfully to the nested reply value: decoding
runs over the explicit decode-frame stack, so the depth is unbounded. -/
theorem c9_depth_independent_decoding (d : Nat) :
    (runChunks initReader ((nestEnc d).map (fun c => [c]))).1 = [nestVal d] := by
  rw [runChunks_drain _ initReader (Nat.zero_le _) initReader_settled]
  rw [flatten_singletons, drain_nestEnc]

/-! ### Callback-pipeline lemmas -/

theorem okZip_nil_right (q : List (Option Nat)) : okZip q [] = [] := by
  cases q <;> rfl

theorem okZip_append : ∀ (a : List Reply) (q : List (Option Nat)) (b : List Reply),
    a.length ≤ q.length →
    okZip q (a ++ b) = okZip q a ++ okZip (q.drop a.length) b := by
  intro a
  induction a with
  | nil =>
    intro q b h
    simp [okZip_nil_right]
  | cons v a' ih =>
    intro q b h
    cases q with
    | nil => simp at h
    | cons cb q' =>
      simp only [List.cons_append, okZip, List.length_cons, List.drop_succ_cons,
        List.append_eq]
      rw [ih q' b (by simpa using h)]
      cases cb <;> rfl

theorem okZip_map_some : ∀ (ts : List Nat) (vs : List Reply),
    okZip (ts.map some) vs = ts.zip vs := by
  intro ts
  induction ts with
  | nil => intro vs; cases vs <;> rfl
  | cons t ts' ih =>
    intro vs
    cases vs with
    | nil => rfl
    | cons v vs' => simp only [List.map_cons, okZip, List.zip_cons_cons, ih]

/-- The `processCallbacks` loop delivers exactly the drainable replies, in
order, to the oldest pending callbacks, as long as enough callbacks are
queued; the parser ends in the drained state and the queue loses exactly
one entry per reply. -/
theorem pcLoop_drain : ∀ (cbs : List (Option Nat)) (r : Reader),
    (drain r).1.length ≤ cbs.length →
    pcLoop r cbs =
      ⟨okZip cbs (drain r).1, (drain r).2, cbs.drop (drain r).1.length, (drain r).2.err⟩ := by
  intro cbs
  induction cbs with
  | nil =>
    intro r hlen
    cases hgr : getReply r with
    | mk o r₁ =>
      cases o with
      | complete v =>
        rw [drain_complete hgr] at hlen
        simp at hlen
      | incomplete =>
        have hst := getReply_incomplete_state hgr
        rw [drain_incomplete hgr]
        simp only [pcLoop]
        rw [hgr]
        dsimp only
        rw [hst.2.2]
        rfl
      | protocolError m =>
        have herr := getReply_protoErr_err hgr
        rw [drain_protoErr hgr]
        simp only [pcLoop]
        rw [hgr]
        dsimp only
        rw [herr]
        rfl
  | cons cb cbs' ih =>
    intro r hlen
    cases hgr : getReply r with
    | mk o r₁ =>
      cases o with
      | complete v =>
        rw [drain_complete hgr] at hlen ⊢
        simp only [List.length_cons] at hlen
        simp only [pcLoop]
        rw [hgr]
        dsimp only
        rw [ih r₁ (by omega)]
        simp only [List.length_cons, List.drop_succ_cons]
        cases cb <;> rfl
      | incomplete =>
        have hst := getReply_incomplete_state hgr
        rw [drain_incomplete hgr]
        simp only [pcLoop]
        rw [hgr]
        dsimp only
        rw [hst.2.2]
        rfl
      | protocolError m =>
        have herr := getReply_protoErr_err hgr
        rw [drain_protoErr hgr]
        simp only [pcLoop]
        rw [hgr]
        dsimp only
        rw [herr]
        rfl

/-- Issuing commands on a non-blocking connection appends the command bytes
to the output buffer and the callbacks to the queue in issue order; nothing
else changes. -/
theorem issueAll_state : ∀ (ps : List (Nat × List Char)) (c : Conn),
    c.blocking = false →
    (issueAll c ps).blocking = false ∧
    (issueAll c ps).reader = c.reader ∧
    (issueAll c ps).callbacks = c.callbacks ++ ps.map (fun p => some p.1) ∧
    (issueAll c ps).obuf = c.obuf ++ (ps.map Prod.snd).flatten ∧
    (issueAll c ps).error = c.error := by
  intro ps
  induction ps with
  | nil => intro c hb; simp [issueAll, hb]
  | cons p ps' ih =>
    intro c hb
    obtain ⟨t, cmd⟩ := p
    have hstep : (redisCommandWithCallback c (some t) cmd).2 =
        { c with obuf := c.obuf ++ cmd, callbacks := c.callbacks ++ [some t] } := by
      simp [redisCommandWithCallback, hb]
    simp only [issueAll]
    rw [hstep]
    have h' := ih { c with obuf := c.obuf ++ cmd, callbacks := c.callbacks ++ [some t] } hb
    obtain ⟨h1, h2, h3, h4, h5⟩ := h'
    refine ⟨h1, h2, ?_, ?_, h5⟩
    · rw [h3]; simp
    · rw [h4]; simp

/-- Pumping the reply bytes through any schedule of reads delivers, in
order, exactly the replies decodable from everything read so far, paired
with the pending callbacks in queue order. -/
theorem pump_invocations : ∀ (chunks : List (List Char)) (c : Conn),
    c.blocking = false → c.reader.pos ≤ c.reader.buf.length → Settled c.reader →
    (drain (feed c.reader chunks.flatten)).1.length ≤ c.callbacks.length →
    (pump c chunks).1 = okZip c.callbacks (drain (feed c.reader chunks.flatten)).1 := by
  intro chunks
  induction chunks with
  | nil =>
    intro c hb hwf hst hlen
    simp only [pump, List.flatten_nil, feed_nil]
    rw [hst]
    rw [okZip_nil_right]
  | cons ch rest ih =>
    intro c hb hwf hst hlen
    have hwfR : (feed c.reader ch).pos ≤ (feed c.reader ch).buf.length :=
      feed_pos_le hwf ch
    have htot := drain_feed rest.flatten hwfR
    have hlen' : (drain (feed c.reader (ch :: rest).flatten)).1.length ≤ c.callbacks.length :=
      hlen
    rw [List.flatten_cons, ← feed_feed] at hlen'
    rw [htot] at hlen'
    simp only [List.length_append] at hlen'
    have hlen1 : (drain (feed c.reader ch)).1.length ≤ c.callbacks.length := by omega
    simp only [pump]
    have hpc : redisProcessCallbacks (feedConn c ch) =
        ((pcLoop (feed c.reader ch) c.callbacks).invocations,
          { c with
            reader := (pcLoop (feed c.reader ch) c.callbacks).reader
            callbacks := (pcLoop (feed c.reader ch) c.callbacks).pending
            error := (pcLoop (feed c.reader ch) c.callbacks).error }) := by
      simp only [redisProcessCallbacks, feedConn]
      rw [if_neg (by simp [hb])]
    rw [hpc]
    rw [pcLoop_drain c.callbacks (feed c.reader ch) hlen1]
    dsimp only
    have hwf2 : (drain (feed c.reader ch)).2.pos ≤ (drain (feed c.reader ch)).2.buf.length :=
      drain_pos_le hwfR
    have hrec := ih
      { c with
        reader := (drain (feed c.reader ch)).2
        callbacks := c.callbacks.drop (drain (feed c.reader ch)).1.length
        error := (drain (feed c.reader ch)).2.err }
      hb hwf2 drain_snd_settled
      (by
        dsimp only
        simp only [List.length_drop]
        omega)
    dsimp only at hrec
    rw [hrec]
    rw [List.flatten_cons, ← feed_feed, htot]
    rw [okZip_append _ _ _ hlen1]

/-- C3: pipeline ordering.  Issue any sequence of commands with callbacks on
a non-blocking connection, then let the reply bytes arrive under any
partitioning across `read()` calls, pumping `processCallbacks` after each
read.  As long as no more replies arrive than commands were issued, the
callbacks are invoked in exactly the order the commands were issued, the
`i`-th callback receiving the `i`-th decoded reply of the stream. -/
theorem c3_pipeline_ordering (pairs : List (Nat × List Char)) (chunks : List (List Char))
    (h : (drain (feed initReader chunks.flatten)).1.length ≤ pairs.length) :
    (pump (issueAll (mkConn false) pairs) chunks).1 =
      (pairs.map Prod.fst).zip (drain (feed initReader chunks.flatten)).1 := by
  obtain ⟨hbl, hrd, hcbs, _, _⟩ := issueAll_state pairs (mkConn false) rfl
  have hrd' : (issueAll (mkConn false) pairs).reader = initReader := hrd
  have hcbs' : (issueAll (mkConn false) pairs).callbacks =
      pairs.map (fun p => some p.1) := by
    rw [hcbs]; rfl
  rw [pump_invocations chunks _ hbl
    (by rw [hrd']; exact Nat.zero_le _)
    (by rw [hrd']; exact initReader_settled)
    (by rw [hrd', hcbs']; simpa using h)]
  rw [hrd', hcbs']
  have : pairs.map (fun p => some p.1) = (pairs.map Prod.fst).map some := by
    simp [List.map_map]
  rw [this, okZip_map_some]

/-- Witness for C3: three commands issued before any reply bytes arrive,
then all three replies fed in one chunk, invoke the three callbacks in
issue order with the correct corresponding values. -/
theorem c3_pipeline_ordering_witness :
    (pump (issueAll (mkConn false)
        [(1, "CMD1".toList), (2, "CMD2".toList), (3, "CMD3".toList)])
        [(":1\r\n+OK\r\n$3\r\nfoo\r\n".toList)]).1 =
      [(1, .integer 1), (2, .status "OK".toList), (3, .bulk "foo".toList)] := by
  have h := c3_pipeline_ordering
    [(1, "CMD1".toList), (2, "CMD2".toList), (3, "CMD3".toList)]
    [(":1\r\n+OK\r\n$3\r\nfoo\r\n".toList)]
    (by decide)
  exact h.trans (by rfl)

/-- C8: blocking-mode command result.  On a blocking connection,
`redisCommand` enqueues no callback entry, appends the command and drains
the whole output buffer to the channel synchronously, and performs the
read-then-`getReply` cycle: when the cycle decodes a reply the value is
returned directly with a clear error slot; when the channel or the
protocol fails, NULL is returned and the connection's error slot describes
the failure. -/
theorem c8_blocking_command (c : Conn) (cmd : List Char) (script : List (List Char))
    (hb : c.blocking = true) :
    (redisCommand c cmd script).2.callbacks = c.callbacks ∧
    (redisCommand c cmd script).2.obuf = [] ∧
    (redisCommand c cmd script).2.sent = c.sent ++ (c.obuf ++ cmd) ∧
    (∀ v r', blockingGetReply c.reader script = (.ok v, r') →
      (redisCommand c cmd script).1 = some v ∧
      (redisCommand c cmd script).2.error = none ∧
      (redisCommand c cmd script).2.reader = r') ∧
    (∀ m r', blockingGetReply c.reader script = (.error m, r') →
      (redisCommand c cmd script).1 = none ∧
      (redisCommand c cmd script).2.error = some m ∧
      (redisCommand c cmd script).2.reader = r') := by
  simp only [redisCommand, hb, if_pos]
  cases hbg : blockingGetReply c.reader script with
  | mk e r₀ =>
    cases e with
    | ok v₀ =>
      refine ⟨rfl, rfl, rfl, ?_, ?_⟩
      · intro v r' h
        injection h with h1 h2
        injection h1 with hv
        subst hv; subst h2
        exact ⟨rfl, rfl, rfl⟩
      · intro m r' h
        injection h with h1 h2
        cases h1
    | error m₀ =>
      refine ⟨rfl, rfl, rfl, ?_, ?_⟩
      · intro v r' h
        injection h with h1 h2
        cases h1
      · intro m r' h
        injection h with h1 h2
        injection h1 with hm
        subst hm; subst h2
        exact ⟨rfl, rfl, rfl⟩

/-- Witness for C8: a blocking command whose reply `:1\r\n` arrives on the
first read returns `Integer 1` directly, enqueues no callback, and drains
the command bytes to the channel. -/
theorem c8_blocking_command_witness :
    (redisCommand (mkConn true) ("PING".toList) [(":1\r\n".toList)]).1 =
      some (.integer 1) ∧
    (redisCommand (mkConn true) ("PING".toList) [(":1\r\n".toList)]).2.callbacks =
      (mkConn true).callbacks ∧
    (redisCommand (mkConn true) ("PING".toList) [(":1\r\n".toList)]).2.error = none ∧
    (redisCommand (mkConn true) ("PING".toList) [(":1\r\n".toList)]).2.sent =
      "PING".toList := by
  have h := c8_blocking_command (mkConn true) ("PING".toList) [(":1\r\n".toList)] rfl
  have h4 := h.2.2.2.1 (.integer 1) ⟨[], 0, [], none⟩ rfl
  exact ⟨h4.1, h.1, h4.2.1, h.2.2.1⟩

/-- C10: on a blocking connection, `redisCommandWithCallback` performs no
action at all — it returns NULL and the connection state (output buffer,
callback queue, parser, error slot) is exactly what it was. -/
theorem c10_blocking_with_callback_noop (c : Conn) (cb : Option Nat) (cmd : List Char)
    (hb : c.blocking = true) :
    redisCommandWithCallback c cb cmd = (none, c) := by
  simp [redisCommandWithCallback, hb]

/-- Witness for C10 at a concrete blocking connection. -/
theorem c10_blocking_with_callback_noop_witness :
    redisCommandWithCallback (mkConn true) (some 5) ("PING".toList) =
      (none, mkConn true) :=
  c10_blocking_with_callback_noop (mkConn true) (some 5) ("PING".toList) rfl

end Hiredis
